import Mathlib

/-!
Verification of the leveled-compaction index of ydb-frostdb
(`index/levels.go` and the predicate-pruning code of `query/expr`).

The file-backed level is embedded at the byte level: an index file is a
`List Nat` of bytes, a record is a payload followed by an 8-byte
little-endian trailer holding the payload length, and recovery walks the
file back-to-front exactly as `FileCompaction.recover` does.

The parquet codec is an external collaborator of the Go code
(`parquet-go` plus the repository's `dynparquet`/`parts` packages, which
are not part of the sources under scrutiny).  It is modelled from the
spec (section 4.1) by a concrete executable encoder/decoder pair: a
payload is the key/value metadata followed by the merged row-group
content, and reopening the exact byte range written returns the same
metadata and content.
-/

namespace FrostIdx

/-- Little-endian 8-byte encoding of a 64-bit unsigned integer, as
produced by `binary.LittleEndian.PutUint64`. -/
def w64le (n : Nat) : List Nat :=
  [n % 256, n / 256 % 256, n / 256 ^ 2 % 256, n / 256 ^ 3 % 256,
   n / 256 ^ 4 % 256, n / 256 ^ 5 % 256, n / 256 ^ 6 % 256, n / 256 ^ 7 % 256]

/-- Little-endian decoding of the first 8 bytes, as done by
`binary.LittleEndian.Uint64` on the trailer slice. -/
def r64le : List Nat → Nat
  | b0 :: b1 :: b2 :: b3 :: b4 :: b5 :: b6 :: b7 :: _ =>
    b0 + 256 * (b1 + 256 * (b2 + 256 * (b3 + 256 * (b4 + 256 * (b5 + 256 * (b6 + 256 * b7))))))
  | _ => 0

theorem w64le_length (n : Nat) : (w64le n).length = 8 := rfl

theorem r64le_w64le (n : Nat) : r64le (w64le n) = n % 2 ^ 64 := by
  show n % 256 + 256 * (n / 256 % 256 + 256 * (n / 256 ^ 2 % 256 + 256 * (n / 256 ^ 3 % 256 +
    256 * (n / 256 ^ 4 % 256 + 256 * (n / 256 ^ 5 % 256 + 256 * (n / 256 ^ 6 % 256 +
    256 * (n / 256 ^ 7 % 256))))))) = n % 2 ^ 64
  omega

/-! ### Model codec: bit-level encoding of naturals, characters, strings
and key/value metadata.  `Modelled from the spec:` the columnar codec of
section 4.1 (external `parquet-go` writer/reader and the repository's
`dynparquet` wrapper, absent from `src/`): serializing writes the
key/value metadata and the merged row-group content, and opening the
exact written byte range recovers both. -/

/-- Bits of `n`, least-significant first; `fuel`-guarded structural
recursion so the kernel can evaluate it. -/
def bitsAux : Nat → Nat → List Nat
  | _, 0 => []
  | 0, _ + 1 => []
  | fuel + 1, n + 1 => ((n + 1) % 2) :: bitsAux fuel ((n + 1) / 2)

/-- Self-delimiting encoding of a natural: its bits, then a `2` marker. -/
def encNat (n : Nat) : List Nat := bitsAux n n ++ [2]

/-- Decoder matching `encNat`; returns the value and the remaining bytes. -/
def decNat : List Nat → Option (Nat × List Nat)
  | [] => none
  | 0 :: rest => (decNat rest).map (fun p => (2 * p.1, p.2))
  | 1 :: rest => (decNat rest).map (fun p => (2 * p.1 + 1, p.2))
  | 2 :: rest => some (0, rest)
  | _ => none

theorem decNat_bitsAux (fuel : Nat) :
    ∀ n rest, n ≤ fuel → decNat (bitsAux fuel n ++ 2 :: rest) = some (n, rest) := by
  induction fuel with
  | zero =>
    intro n rest h
    interval_cases n
    simp [bitsAux, decNat]
  | succ f ih =>
    intro n rest h
    match n with
    | 0 => simp [bitsAux, decNat]
    | m + 1 =>
      have hdiv : (m + 1) / 2 ≤ f := by omega
      have hrec := ih ((m + 1) / 2) rest hdiv
      rcases Nat.mod_two_eq_zero_or_one (m + 1) with h2 | h2
      · have : bitsAux (f + 1) (m + 1) = 0 :: bitsAux f ((m + 1) / 2) := by
          simp [bitsAux, h2]
        rw [this]
        simp only [List.cons_append, decNat, List.append_eq, hrec, Option.map_some]
        have h3 : 2 * ((m + 1) / 2) = m + 1 := by omega
        simp [h3]
      · have : bitsAux (f + 1) (m + 1) = 1 :: bitsAux f ((m + 1) / 2) := by
          simp [bitsAux, h2]
        rw [this]
        simp only [List.cons_append, decNat, List.append_eq, hrec, Option.map_some]
        have h3 : 2 * ((m + 1) / 2) + 1 = m + 1 := by omega
        simp [h3]

theorem decNat_encNat (n : Nat) (rest : List Nat) :
    decNat (encNat n ++ rest) = some (n, rest) := by
  have := decNat_bitsAux n n rest (Nat.le_refl n)
  simpa [encNat] using this

/-- Encoding of one character. -/
def encChar (c : Char) : List Nat := encNat c.toNat

/-- Encoding of a character list. -/
def encCharList : List Char → List Nat
  | [] => []
  | c :: cs => encChar c ++ encCharList cs

/-- Encoding of a string: its length, then its characters. -/
def encStr (s : String) : List Nat := encNat s.length ++ encCharList s.data

/-- Decoder for `k` characters. -/
def decChars : Nat → List Nat → Option (List Char × List Nat)
  | 0, bs => some ([], bs)
  | k + 1, bs =>
    match decNat bs with
    | none => none
    | some (c, bs1) =>
      match decChars k bs1 with
      | none => none
      | some (cs, bs2) => some (Char.ofNat c :: cs, bs2)

/-- Decoder matching `encStr`. -/
def decStr (bs : List Nat) : Option (String × List Nat) :=
  match decNat bs with
  | none => none
  | some (k, bs1) =>
    match decChars k bs1 with
    | none => none
    | some (cs, bs2) => some (String.mk cs, bs2)

theorem decChars_encCharList (cs : List Char) (rest : List Nat) :
    decChars cs.length (encCharList cs ++ rest) = some (cs, rest) := by
  induction cs generalizing rest with
  | nil => simp [encCharList, decChars]
  | cons c cs ih =>
    show decChars (cs.length + 1) ((encChar c ++ encCharList cs) ++ rest) = _
    rw [List.append_assoc]
    show decChars (cs.length + 1) (encNat c.toNat ++ (encCharList cs ++ rest)) = _
    simp only [decChars, decNat_encNat, ih, Char.ofNat_toNat]

theorem decStr_encStr (s : String) (rest : List Nat) :
    decStr (encStr s ++ rest) = some (s, rest) := by
  cases s with
  | mk cs =>
    show decStr ((encNat cs.length ++ encCharList cs) ++ rest) = _
    rw [List.append_assoc]
    simp only [decStr, decNat_encNat, decChars_encCharList]

/-- Encoding of one key/value metadata pair. -/
def encPair (p : String × String) : List Nat := encStr p.1 ++ encStr p.2

/-- Encoding of a metadata pair list. -/
def encPairs : List (String × String) → List Nat
  | [] => []
  | p :: ps => encPair p ++ encPairs ps

/-- Encoding of the key/value metadata block of a payload. -/
def encMeta (m : List (String × String)) : List Nat := encNat m.length ++ encPairs m

/-- Decoder for `k` metadata pairs. -/
def decPairs : Nat → List Nat → Option (List (String × String) × List Nat)
  | 0, bs => some ([], bs)
  | k + 1, bs =>
    match decStr bs with
    | none => none
    | some (key, bs1) =>
      match decStr bs1 with
      | none => none
      | some (v, bs2) =>
        match decPairs k bs2 with
        | none => none
        | some (ps, bs3) => some ((key, v) :: ps, bs3)

/-- A reopened payload: the key/value metadata visible through
`ParquetFile().Lookup` and the merged row-group content. -/
structure PFile where
  meta : List (String × String)
  content : List Nat
deriving DecidableEq

/-- Decoder for a whole payload byte range, the model of
`parquet.OpenFile` + `dynparquet.NewSerializedBuffer` on an exact
section of an index file: `none` is the error case. -/
def decPayload (bs : List Nat) : Option PFile :=
  match decNat bs with
  | none => none
  | some (k, bs1) =>
    match decPairs k bs1 with
    | none => none
    | some (m, rest) => some ⟨m, rest⟩

theorem decPairs_encPairs (m : List (String × String)) (rest : List Nat) :
    decPairs m.length (encPairs m ++ rest) = some (m, rest) := by
  induction m generalizing rest with
  | nil => simp [encPairs, decPairs]
  | cons p ps ih =>
    show decPairs (ps.length + 1) ((encPair p ++ encPairs ps) ++ rest) = _
    rw [List.append_assoc]
    show decPairs (ps.length + 1) ((encStr p.1 ++ encStr p.2) ++ (encPairs ps ++ rest)) = _
    rw [List.append_assoc]
    simp only [decPairs, decStr_encStr, ih]

theorem decPayload_enc (m : List (String × String)) (c : List Nat) :
    decPayload (encMeta m ++ c) = some ⟨m, c⟩ := by
  show decPayload ((encNat m.length ++ encPairs m) ++ c) = _
  rw [List.append_assoc]
  simp only [decPayload, decNat_encNat, decPairs_encPairs]

/-! ### Decimal printing (`fmt.Sprintf` with a `%v` verb on a `uint64`)
and parsing (`strconv.Atoi`). -/

/-- Decimal digits of `n`, least-significant first; `fuel`-guarded. -/
def digitsAux : Nat → Nat → List Nat
  | _, 0 => []
  | 0, _ + 1 => []
  | fuel + 1, n + 1 => ((n + 1) % 10) :: digitsAux fuel ((n + 1) / 10)

/-- Decimal digits of `n`, most-significant first, `[0]` for zero. -/
def decDigitsOf (n : Nat) : List Nat := if n = 0 then [0] else (digitsAux n n).reverse

/-- The character of a decimal digit. -/
def digitChar (d : Nat) : Char := Char.ofNat (48 + d)

/-- `fmt.Sprintf` of a `uint64`: its decimal representation. -/
def uintStr (t : Nat) : String := String.mk ((decDigitsOf (t % 2 ^ 64)).map digitChar)

/-- The digit value of a character, `none` for a non-digit
(`strconv.Atoi` rejects the string in that case). -/
def digitOf (c : Char) : Option Nat :=
  if 48 ≤ c.toNat ∧ c.toNat ≤ 57 then some (c.toNat - 48) else none

/-- Accumulating decimal parser over characters. -/
def parseDigitsAux : List Char → Nat → Option Nat
  | [], acc => some acc
  | c :: cs, acc =>
    match digitOf c with
    | none => none
    | some d => parseDigitsAux cs (10 * acc + d)

/-- `math.MaxInt64`, the largest value `strconv.Atoi` accepts on a
64-bit platform. -/
def intMax64 : Nat := 2 ^ 63 - 1

/-- Model of Go `strconv.Atoi` into a 64-bit `int`: `none` is a
non-nil error (empty string, stray characters, or value out of the
`int64` range). -/
def atoi (s : String) : Option Int :=
  match s.data with
  | [] => none
  | c :: rest =>
    if c = '+' then
      match rest, parseDigitsAux rest 0 with
      | _ :: _, some n => if n ≤ intMax64 then some (n : Int) else none
      | _, _ => none
    else if c = '-' then
      match rest, parseDigitsAux rest 0 with
      | _ :: _, some n => if n ≤ 2 ^ 63 then some (-(n : Int)) else none
      | _, _ => none
    else
      match parseDigitsAux (c :: rest) 0 with
      | some n => if n ≤ intMax64 then some (n : Int) else none
      | none => none

/-- The metadata key written by `FileCompaction.Compact` and looked up
by `recover`. -/
def ParquetCompactionTXKey : String := "compaction_tx"

/-- Model of `parquet.File.Lookup` on key/value metadata. -/
def lookupKV (key : String) : List (String × String) → Option String
  | [] => none
  | p :: ps => if p.1 = key then some p.2 else lookupKV key ps

/-- The transaction a recovered record gets from the string value of
`compaction_tx`: the `uint64` conversion of the parsed `int`, or `0`
when `strconv.Atoi` fails (the downgrade-to-zero policy). -/
def txFromString (s : String) : Nat :=
  match atoi s with
  | none => 0
  | some i => (i % (2 ^ 64 : Int)).toNat

/-- The transaction stamp `recover` assigns to a record with the given
metadata: `0` when `compaction_tx` is absent or unparseable. -/
def recTxOfMeta (m : List (String × String)) : Nat :=
  match lookupKV ParquetCompactionTXKey m with
  | none => 0
  | some s => txFromString s

/-- Value of a least-significant-first decimal digit list. -/
def valLSB : List Nat → Nat
  | [] => 0
  | d :: ds => d + 10 * valLSB ds

theorem valLSB_digitsAux (fuel : Nat) :
    ∀ n, n ≤ fuel → valLSB (digitsAux fuel n) = n := by
  induction fuel with
  | zero =>
    intro n h
    interval_cases n
    simp [digitsAux, valLSB]
  | succ f ih =>
    intro n h
    match n with
    | 0 => simp [digitsAux, valLSB]
    | m + 1 =>
      have hdiv : (m + 1) / 10 ≤ f := by omega
      show ((m + 1) % 10) + 10 * valLSB (digitsAux f ((m + 1) / 10)) = m + 1
      rw [ih _ hdiv]
      omega

theorem digitsAux_lt_ten (fuel : Nat) :
    ∀ n d, d ∈ digitsAux fuel n → d < 10 := by
  induction fuel with
  | zero =>
    intro n d hd
    match n with
    | 0 => simp [digitsAux] at hd
    | m + 1 => simp [digitsAux] at hd
  | succ f ih =>
    intro n d hd
    match n with
    | 0 => simp [digitsAux] at hd
    | m + 1 =>
      rcases List.mem_cons.mp hd with h | h
      · omega
      · exact ih _ _ h

theorem foldl_reverse_val (l : List Nat) :
    ∀ a : Nat, (l.reverse).foldl (fun x d => 10 * x + d) a = a * 10 ^ l.length + valLSB l := by
  induction l with
  | nil => intro a; simp [valLSB]
  | cons d ds ih =>
    intro a
    rw [List.reverse_cons, List.foldl_append, ih]
    show 10 * (a * 10 ^ ds.length + valLSB ds) + d = a * 10 ^ (ds.length + 1) + valLSB (d :: ds)
    rw [pow_succ]
    show 10 * (a * 10 ^ ds.length + valLSB ds) + d
      = a * (10 ^ ds.length * 10) + (d + 10 * valLSB ds)
    ring

theorem decDigitsOf_lt_ten (n : Nat) : ∀ d ∈ decDigitsOf n, d < 10 := by
  intro d hd
  by_cases h : n = 0
  · simp [decDigitsOf, h] at hd
    omega
  · rw [decDigitsOf, if_neg h] at hd
    exact digitsAux_lt_ten n n d (List.mem_reverse.mp hd)

theorem decDigitsOf_ne_nil (n : Nat) : decDigitsOf n ≠ [] := by
  by_cases h : n = 0
  · simp [decDigitsOf, h]
  · rw [decDigitsOf, if_neg h]
    match n, h with
    | m + 1, _ =>
      show (((m + 1) % 10) :: digitsAux m ((m + 1) / 10)).reverse ≠ []
      simp

theorem foldl_decDigitsOf (n : Nat) :
    (decDigitsOf n).foldl (fun x d => 10 * x + d) 0 = n := by
  by_cases h : n = 0
  · simp [decDigitsOf, h]
  · rw [decDigitsOf, if_neg h, foldl_reverse_val, valLSB_digitsAux n n (Nat.le_refl n)]
    simp

theorem digitOf_digitChar (d : Nat) (h : d < 10) : digitOf (digitChar d) = some d := by
  interval_cases d <;> decide

theorem digitChar_ne_plus (d : Nat) (h : d < 10) : digitChar d ≠ '+' := by
  interval_cases d <;> decide

theorem digitChar_ne_minus (d : Nat) (h : d < 10) : digitChar d ≠ '-' := by
  interval_cases d <;> decide

theorem parseDigitsAux_map (ds : List Nat) :
    ∀ acc, (∀ d ∈ ds, d < 10) →
      parseDigitsAux (ds.map digitChar) acc = some (ds.foldl (fun x d => 10 * x + d) acc) := by
  induction ds with
  | nil => intro acc _; simp [parseDigitsAux]
  | cons d ds ih =>
    intro acc hlt
    have hd : d < 10 := hlt d (List.mem_cons_self d ds)
    show parseDigitsAux (digitChar d :: ds.map digitChar) acc = _
    rw [parseDigitsAux, digitOf_digitChar d hd]
    exact ih _ (fun x hx => hlt x (List.mem_cons_of_mem d hx))

theorem atoi_uintStr (t : Nat) (h : t < 2 ^ 63) : atoi (uintStr t) = some (t : Int) := by
  have hmod : t % 2 ^ 64 = t := Nat.mod_eq_of_lt (by omega)
  have hds : uintStr t = String.mk ((decDigitsOf t).map digitChar) := by
    rw [uintStr, hmod]
  rw [hds]
  have hne := decDigitsOf_ne_nil t
  have hlt := decDigitsOf_lt_ten t
  have hfold := foldl_decDigitsOf t
  match hmatch : decDigitsOf t with
  | [] => exact absurd hmatch hne
  | d0 :: ds =>
    rw [hmatch] at hlt hfold
    have hd0 : d0 < 10 := hlt d0 (List.mem_cons_self d0 ds)
    show atoi (String.mk (digitChar d0 :: ds.map digitChar)) = some (t : Int)
    rw [atoi]
    simp only [if_neg (digitChar_ne_plus d0 hd0), if_neg (digitChar_ne_minus d0 hd0)]
    have hparse := parseDigitsAux_map (d0 :: ds) 0 hlt
    simp only [List.map_cons] at hparse
    rw [hparse, hfold]
    show (if t ≤ intMax64 then some ((t : Nat) : Int) else none) = some ((t : Nat) : Int)
    rw [if_pos (show t ≤ intMax64 by simp only [intMax64]; omega)]

theorem txFromString_uintStr (t : Nat) (h : t < 2 ^ 63) : txFromString (uintStr t) = t := by
  rw [txFromString, atoi_uintStr t h]
  show (((t : Nat) : Int) % (2 ^ 64 : Int)).toNat = t
  have h1 : (((t : Nat) : Int) % (2 ^ 64 : Int)) = ((t : Nat) : Int) := by
    apply Int.emod_eq_of_lt
    · omega
    · omega
  rw [h1]
  omega

/-! ### Parts and the file-backed level (`index/levels.go`). -/

/-- A published part handle.  `Modelled from the spec:` the `parts`
package (section 4.2, absent from `src/`): a part is its `uint64`
transaction stamp and its serialized buffer. -/
structure PPart where
  tx : Nat
  buf : PFile
deriving DecidableEq

/-- The merged row-group content the codec writes for a list of input
parts.  `Modelled from the spec:` the codec's merge of section 4.1. -/
def mergeContent : List PPart → List Nat
  | [] => []
  | p :: ps => p.buf.content ++ mergeContent ps

/-- Sum of a list of naturals. -/
def natSum : List Nat → Nat
  | [] => 0
  | n :: ns => n + natSum ns

/-- The codec-reported logical pre-compaction size.  `Modelled from the
spec:` section 4.1, the sum of the input parts' logical sizes. -/
def preSize (inputs : List PPart) : Nat := natSum (inputs.map (fun p => p.buf.content.length))

/-- `compact[0].TX()` as used by both levels (`0` on the empty list,
which both levels reject before reading it). -/
def headTx : List PPart → Nat
  | [] => 0
  | i :: _ => i.tx

/-- The key/value metadata pair `FileCompaction.Compact` passes to the
codec: `compaction_tx = fmt.Sprintf of inputs[0].TX()`. -/
def metaOf (inputs : List PPart) : List (String × String) :=
  [(ParquetCompactionTXKey, uintStr (headTx inputs))]

/-- The payload bytes the codec writes for `FileCompaction.Compact`. -/
def payloadFC (inputs : List PPart) : List Nat :=
  encMeta (metaOf inputs) ++ mergeContent inputs

/-- The payload bytes for `inMemoryLevel.Compact`, which passes no
key/value metadata option to the codec. -/
def payloadMem (inputs : List PPart) : List Nat :=
  encMeta [] ++ mergeContent inputs

/-- One on-disk index file: its numeric id (the 20-digit zero-padded
base name) and its byte content. -/
structure IdxFile where
  id : Nat
  content : List Nat
deriving DecidableEq

/-- The `FileCompaction` state: the ordered file list (last = active),
the write offset into the active file, and the live-part counter
(the `sync.WaitGroup`). -/
structure FC where
  files : List IdxFile
  offset : Nat
  live : Nat
deriving DecidableEq

/-- `NewFileCompaction`: creates the directory; note that it opens no
index file. -/
def newFileCompaction : FC := { files := [], offset := 0, live := 0 }

/-- `createIndexFile(len(f.indexFiles))`: appends a fresh empty active
file whose id is the current file count and resets the write offset. -/
def createIndexFileM (fc : FC) : FC :=
  { fc with files := fc.files ++ [⟨fc.files.length, []⟩], offset := 0 }

/-- The level state right after `Reset` (or after `recover` on an empty
directory): one empty active file with id 0. -/
def fcInit : FC := createIndexFileM newFileCompaction

/-- `Reset`: close and delete everything, recreate the directory and one
fresh active file with id 0 (after the live-part counter drained). -/
def fcReset (_fc : FC) : FC := { files := [⟨0, []⟩], offset := 0, live := 0 }

def errNoParts : String := "no parts to compact"
def errNoActiveFile : String := "no active index file"
def errOpenAfterCompaction : String := "failed to open file after compaction"
def errRecovery : String := "failed to recover index file"

/-- `FileCompaction.Compact`: append the codec payload and the 8-byte
little-endian trailer to the active file, advance the offset by
payload + 8, reopen the payload's byte range, and publish one new part
stamped with `inputs[0].TX()`.  Returns the (possibly mutated) state and
either an error or `(newParts, preCompactionBytes, postCompactionBytes)`. -/
def fcCompact (fc : FC) (inputs : List PPart) :
    FC × Except String (List PPart × Nat × Nat) :=
  match inputs with
  | [] => (fc, Except.error errNoParts)
  | i0 :: rest =>
    match fc.files.getLast? with
    | none => (fc, Except.error errNoActiveFile)
    | some active =>
      let payload := payloadFC (i0 :: rest)
      let n := payload.length
      let content1 := active.content ++ payload ++ w64le n
      let files1 := fc.files.dropLast ++ [⟨active.id, content1⟩]
      let sect := (content1.drop fc.offset).take n
      match decPayload sect with
      | none =>
        ({ files := files1, offset := fc.offset + n + 8, live := fc.live },
          Except.error errOpenAfterCompaction)
      | some pf =>
        ({ files := files1, offset := fc.offset + n + 8, live := fc.live + 1 },
          Except.ok ([⟨i0.tx, pf⟩], preSize (i0 :: rest), n))

/-- `inMemoryLevel.Compact`: the codec writes into a fresh buffer (no
metadata option), the buffer is reopened, and one part stamped with
`toCompact[0].TX()` is returned with `postCompactionBytes = b.Len()`. -/
def inMemCompact (inputs : List PPart) : Except String (List PPart × Nat × Nat) :=
  match inputs with
  | [] => Except.error errNoParts
  | i0 :: rest =>
    match decPayload (payloadMem (i0 :: rest)) with
    | none => Except.error errOpenAfterCompaction
    | some pf =>
      Except.ok ([⟨i0.tx, pf⟩], preSize (i0 :: rest), (payloadMem (i0 :: rest)).length)

/-- `FileCompaction.Snapshot`: hard-link the files into the snapshot
directory in order; when the active (last) file is reached with offset
0, stop early without linking it and without rotating; otherwise link it
too and rotate by creating a new active file with id = current count.
Returns the new state and the list of files linked into the snapshot. -/
def fcSnapshot (fc : FC) : FC × List IdxFile :=
  match fc.files.getLast? with
  | none => (createIndexFileM fc, [])
  | some last =>
    if 0 < fc.offset then (createIndexFileM fc, fc.files.dropLast ++ [last])
    else (fc, fc.files.dropLast)

/-- One recovered record as `recover` publishes it. -/
def mkRecPart (pf : PFile) : PPart := ⟨recTxOfMeta pf.meta, pf⟩

/-- The back-to-front record walk of `FileCompaction.recover` over one
file, fuel-guarded (each step consumes at least 8 bytes of offset, so
`offset + 1` fuel always suffices): read the 8-byte trailer at
`offset - 8`, decode the length, reopen the payload range, and recurse
on the remaining prefix.  `none` is the error exit (short read, negative
offset, or a payload that fails to open). -/
def recoverGoF : Nat → List Nat → Nat → Option (List PPart)
  | 0, _, _ => none
  | fuel + 1, file, offset =>
    if offset = 0 then some []
    else if file.length < offset then none
    else if offset < 8 then none
    else
      let tOff := offset - 8
      let n := r64le ((file.drop tOff).take 8)
      if tOff < n then none
      else
        match decPayload ((file.drop (tOff - n)).take n) with
        | none => none
        | some pf =>
          match recoverGoF fuel file (tOff - n) with
          | none => none
          | some rest => some (mkRecPart pf :: rest)

/-- Record recovery of one file starting at its size. -/
def recoverGo (file : List Nat) (offset : Nat) : Option (List PPart) :=
  recoverGoF (offset + 1) file offset

/-- The `filepath.WalkDir` body of `recover` over the `.idx` entries in
walk (lexicographic) order: skip empty files; open each non-empty file
and append it to the file list; on a per-file failure release that
file's parts, close and drop the file, and return the error (which
aborts the whole walk). -/
def recoverWalk : FC → List IdxFile → FC × Except String (List PPart)
  | fc, [] => (fc, Except.ok [])
  | fc, f :: rest =>
    if f.content.length = 0 then recoverWalk fc rest
    else
      let fcO : FC := { fc with files := fc.files ++ [f] }
      match recoverGo f.content f.content.length with
      | none => ({ fcO with files := fcO.files.dropLast }, Except.error errRecovery)
      | some recParts =>
        let fc1 : FC := { fcO with live := fcO.live + recParts.length }
        match recoverWalk fc1 rest with
        | (fc2, Except.ok more) => (fc2, Except.ok (recParts ++ more))
        | (fc2, Except.error e) => (fc2, Except.error e)

/-- `FileCompaction.recover` on a fresh level over the given directory
contents: walk all files, then (deferred, so on the error path too)
create a new empty active file; on a walk error the caller receives
`(nil, err)`. -/
def fcRecover (dir : List IdxFile) : FC × Except String (List PPart) :=
  match recoverWalk newFileCompaction dir with
  | (fc1, res) => (createIndexFileM fc1, res)

/-- A sequence of `Compact` calls from a given state, `none` as soon as
one call fails; collects the produced parts in call order. -/
def runCompacts : FC → List (List PPart) → Option (FC × List PPart)
  | fc, [] => some (fc, [])
  | fc, ins :: more =>
    match fcCompact fc ins with
    | (fc1, Except.ok (ps, _, _)) =>
      match runCompacts fc1 more with
      | none => none
      | some (fc2, acc) => some (fc2, ps ++ acc)
    | (_, Except.error _) => none

/-! ### Record/file shapes used by the round-trip theorems. -/

/-- A record: a payload followed by the little-endian trailer holding
its byte count. -/
def recordBytes (payload : List Nat) : List Nat := payload ++ w64le payload.length

/-- A payload spec: metadata plus content; its bytes under the codec. -/
def payloadOfSpec (s : List (String × String) × List Nat) : List Nat := encMeta s.1 ++ s.2

/-- The file holding the records of the given payload specs in write
order. -/
def fileOfSpecs : List (List (String × String) × List Nat) → List Nat
  | [] => []
  | s :: ss => recordBytes (payloadOfSpec s) ++ fileOfSpecs ss

/-- The part `recover` publishes for a record with the given spec. -/
def partOfSpec (s : List (String × String) × List Nat) : PPart :=
  ⟨recTxOfMeta s.1, ⟨s.1, s.2⟩⟩

/-- The payload spec of a `Compact` call. -/
def specOfInputs (ins : List PPart) : List (String × String) × List Nat :=
  (metaOf ins, mergeContent ins)

/-- The part a successful `Compact` call publishes. -/
def producedOf (ins : List PPart) : PPart := ⟨headTx ins, ⟨metaOf ins, mergeContent ins⟩⟩

theorem fileOfSpecs_append (a b : List (List (String × String) × List Nat)) :
    fileOfSpecs (a ++ b) = fileOfSpecs a ++ fileOfSpecs b := by
  induction a with
  | nil => simp [fileOfSpecs]
  | cons s ss ih => simp [fileOfSpecs, ih, List.append_assoc]

theorem recordBytes_length (p : List Nat) : (recordBytes p).length = p.length + 8 := by
  rw [recordBytes, List.length_append, w64le_length]

/-- One unfolding step of the record walk when the guards pass. -/
theorem recoverGoF_step (f : Nat) (file : List Nat) (off : Nat)
    (h0 : off ≠ 0) (hlen : off ≤ file.length) (h8 : 8 ≤ off) :
    recoverGoF (f + 1) file off =
      (if off - 8 < r64le ((file.drop (off - 8)).take 8) then none
       else
         match decPayload ((file.drop (off - 8 - r64le ((file.drop (off - 8)).take 8))).take
             (r64le ((file.drop (off - 8)).take 8))) with
         | none => none
         | some pf =>
           match recoverGoF f file (off - 8 - r64le ((file.drop (off - 8)).take 8)) with
           | none => none
           | some rest => some (mkRecPart pf :: rest)) := by
  simp only [recoverGoF]
  rw [if_neg h0, if_neg (by omega), if_neg (by omega)]

/-- The record walk only ever reads bytes below its starting offset, so
a suffix of the file beyond that offset is invisible to it. -/
theorem recoverGoF_append (fuel : Nat) :
    ∀ (F S : List Nat) (off : Nat), off ≤ F.length →
      recoverGoF fuel (F ++ S) off = recoverGoF fuel F off := by
  induction fuel with
  | zero => intro F S off _; rfl
  | succ f ih =>
    intro F S off hoff
    have hFS : (F ++ S).length = F.length + S.length := List.length_append F S
    by_cases h0 : off = 0
    · subst h0; simp [recoverGoF]
    · by_cases h8 : off < 8
      · have hL : recoverGoF (f + 1) (F ++ S) off = none := by
          simp only [recoverGoF]
          rw [if_neg h0, if_neg (show ¬((F ++ S).length < off) by omega), if_pos h8]
        have hR : recoverGoF (f + 1) F off = none := by
          simp only [recoverGoF]
          rw [if_neg h0, if_neg (show ¬(F.length < off) by omega), if_pos h8]
        rw [hL, hR]
      · rw [recoverGoF_step f (F ++ S) off h0 (by omega) (by omega),
          recoverGoF_step f F off h0 hoff (by omega)]
        have hdl : (F.drop (off - 8)).length = F.length - (off - 8) := List.length_drop _ _
        have htr : ((F ++ S).drop (off - 8)).take 8 = (F.drop (off - 8)).take 8 := by
          rw [List.drop_append_of_le_length (by omega),
            List.take_append_of_le_length (by omega)]
        rw [htr]
        by_cases hn : off - 8 < r64le ((F.drop (off - 8)).take 8)
        · rw [if_pos hn, if_pos hn]
        · rw [if_neg hn, if_neg hn]
          have hdl2 : (F.drop (off - 8 - r64le ((F.drop (off - 8)).take 8))).length
              = F.length - (off - 8 - r64le ((F.drop (off - 8)).take 8)) :=
            List.length_drop _ _
          have hslice : ((F ++ S).drop (off - 8 - r64le ((F.drop (off - 8)).take 8))).take
              (r64le ((F.drop (off - 8)).take 8))
              = (F.drop (off - 8 - r64le ((F.drop (off - 8)).take 8))).take
              (r64le ((F.drop (off - 8)).take 8)) := by
            rw [List.drop_append_of_le_length (by omega),
              List.take_append_of_le_length (by omega)]
          rw [hslice, ih F S _ (by omega)]

/-- Recovery of a file made of well-formed records returns one part per
record, in back-to-front order. -/
theorem recoverGoF_fileOfSpecs (specs : List (List (String × String) × List Nat)) :
    ∀ fuel : Nat, (∀ s ∈ specs, (payloadOfSpec s).length < 2 ^ 64) →
      (fileOfSpecs specs).length < fuel →
      recoverGoF fuel (fileOfSpecs specs) (fileOfSpecs specs).length
        = some ((specs.reverse).map partOfSpec) := by
  induction specs using List.reverseRecOn with
  | nil =>
    intro fuel _ hf
    match fuel, hf with
    | f + 1, _ => simp [fileOfSpecs, recoverGoF]
  | append_singleton init s ih =>
    intro fuel hb hf
    obtain ⟨m, c⟩ := s
    have hfile : fileOfSpecs (init ++ [(m, c)])
        = fileOfSpecs init
          ++ (payloadOfSpec (m, c) ++ w64le (payloadOfSpec (m, c)).length) := by
      rw [fileOfSpecs_append]
      simp [fileOfSpecs, recordBytes]
    have hp : (payloadOfSpec (m, c)).length < 2 ^ 64 := hb _ (by simp)
    have hlen : (fileOfSpecs (init ++ [(m, c)])).length
        = (fileOfSpecs init).length + ((payloadOfSpec (m, c)).length + 8) := by
      rw [hfile, List.length_append, List.length_append, w64le_length]
    rw [hlen] at hf
    cases fuel with
    | zero => omega
    | succ f =>
      rw [hlen, hfile]
      rw [recoverGoF_step f _ _ (by omega)
        (by rw [List.length_append, List.length_append, w64le_length]) (by omega)]
      have htOff : (fileOfSpecs init).length + ((payloadOfSpec (m, c)).length + 8) - 8
          = (fileOfSpecs init).length + (payloadOfSpec (m, c)).length := by omega
      rw [htOff]
      have htr : ((fileOfSpecs init ++ (payloadOfSpec (m, c)
            ++ w64le (payloadOfSpec (m, c)).length)).drop
            ((fileOfSpecs init).length + (payloadOfSpec (m, c)).length)).take 8
          = w64le (payloadOfSpec (m, c)).length := by
        rw [← List.append_assoc,
          List.drop_left' (by rw [List.length_append]),
          show (w64le (payloadOfSpec (m, c)).length).take 8
            = w64le (payloadOfSpec (m, c)).length from rfl]
      rw [htr, r64le_w64le, Nat.mod_eq_of_lt hp]
      rw [if_neg (by omega)]
      have hsub : (fileOfSpecs init).length + (payloadOfSpec (m, c)).length
          - (payloadOfSpec (m, c)).length = (fileOfSpecs init).length := by omega
      rw [hsub]
      have hslice : ((fileOfSpecs init ++ (payloadOfSpec (m, c)
            ++ w64le (payloadOfSpec (m, c)).length)).drop
            ((fileOfSpecs init).length)).take (payloadOfSpec (m, c)).length
          = payloadOfSpec (m, c) := by
        rw [List.drop_left, List.take_left]
      rw [hslice]
      rw [show decPayload (payloadOfSpec (m, c)) = some ⟨m, c⟩ from decPayload_enc m c]
      have hrec : recoverGoF f
          (fileOfSpecs init ++ (payloadOfSpec (m, c) ++ w64le (payloadOfSpec (m, c)).length))
          (fileOfSpecs init).length = some (init.reverse.map partOfSpec) := by
        rw [recoverGoF_append f (fileOfSpecs init) _ _ (Nat.le_refl _)]
        exact ih f (fun x hx => hb x (by simp [hx])) (by omega)
      rw [hrec]
      simp [mkRecPart, partOfSpec, List.reverse_append]

/-- Wrapper at the fuel `recoverGo` actually uses. -/
theorem recoverGo_fileOfSpecs (specs : List (List (String × String) × List Nat))
    (hb : ∀ s ∈ specs, (payloadOfSpec s).length < 2 ^ 64) :
    recoverGo (fileOfSpecs specs) (fileOfSpecs specs).length
      = some ((specs.reverse).map partOfSpec) :=
  recoverGoF_fileOfSpecs specs _ hb (Nat.lt_succ_self _)

/-- The state of a level that has executed the compactions recorded by
`ps` into file 0 since its last reset. -/
def runEndState (ps : List (List (String × String) × List Nat)) (lv : Nat) : FC :=
  ⟨[⟨0, fileOfSpecs ps⟩], (fileOfSpecs ps).length, lv⟩

theorem fcCompact_spec (ps0 : List (List (String × String) × List Nat)) (lv : Nat)
    (i0 : PPart) (rest : List PPart) :
    fcCompact (runEndState ps0 lv) (i0 :: rest)
      = (runEndState (ps0 ++ [specOfInputs (i0 :: rest)]) (lv + 1),
         Except.ok ([producedOf (i0 :: rest)], preSize (i0 :: rest),
           (payloadFC (i0 :: rest)).length)) := by
  show fcCompact ⟨[⟨0, fileOfSpecs ps0⟩], (fileOfSpecs ps0).length, lv⟩ (i0 :: rest) = _
  simp only [fcCompact, List.getLast?_singleton, List.dropLast_single]
  have hsect : ((fileOfSpecs ps0 ++ payloadFC (i0 :: rest)
        ++ w64le (payloadFC (i0 :: rest)).length).drop
        (fileOfSpecs ps0).length).take (payloadFC (i0 :: rest)).length
      = payloadFC (i0 :: rest) := by
    rw [List.append_assoc, List.drop_left, List.take_left]
  rw [hsect]
  rw [show decPayload (payloadFC (i0 :: rest))
      = some ⟨metaOf (i0 :: rest), mergeContent (i0 :: rest)⟩ from
    decPayload_enc (metaOf (i0 :: rest)) (mergeContent (i0 :: rest))]
  have hfiles : fileOfSpecs (ps0 ++ [specOfInputs (i0 :: rest)])
      = fileOfSpecs ps0 ++ payloadFC (i0 :: rest) ++ w64le (payloadFC (i0 :: rest)).length := by
    rw [fileOfSpecs_append, List.append_assoc]
    simp [fileOfSpecs, recordBytes, payloadOfSpec, specOfInputs, payloadFC]
  simp [runEndState, producedOf, headTx, hfiles, List.length_append, w64le_length,
    Nat.add_assoc]

theorem runCompacts_spec (seqs : List (List PPart)) :
    ∀ (ps0 : List (List (String × String) × List Nat)) (lv : Nat),
      (∀ ins ∈ seqs, ins ≠ []) →
      runCompacts (runEndState ps0 lv) seqs
        = some (runEndState (ps0 ++ seqs.map specOfInputs) (lv + seqs.length),
            seqs.map producedOf) := by
  induction seqs with
  | nil => intro ps0 lv _; simp [runCompacts]
  | cons ins more ih =>
    intro ps0 lv hne
    have hne0 : ins ≠ [] := hne ins (by simp)
    match ins, hne0 with
    | i0 :: rest, _ =>
      have hmore : ∀ x ∈ more, x ≠ [] := fun x hx => hne x (by simp [hx])
      simp only [runCompacts, fcCompact_spec ps0 lv i0 rest,
        ih (ps0 ++ [specOfInputs (i0 :: rest)]) (lv + 1) hmore]
      simp [List.append_assoc, List.map_cons,
        show lv + 1 + more.length = lv + (more.length + 1) from by omega]

theorem fileOfSpecs_length_pos (s : List (String × String) × List Nat)
    (ss : List (List (String × String) × List Nat)) :
    0 < (fileOfSpecs (s :: ss)).length := by
  show 0 < (recordBytes (payloadOfSpec s) ++ fileOfSpecs ss).length
  rw [List.length_append, recordBytes_length]
  omega

/-- `recover` over a directory holding one non-empty well-formed file:
every record is recovered (back-to-front), the file is kept in the file
list, and a fresh active file with id 1 is created. -/
theorem fcRecover_single (specs : List (List (String × String) × List Nat))
    (hb : ∀ s ∈ specs, (payloadOfSpec s).length < 2 ^ 64) (hne : specs ≠ []) :
    fcRecover [⟨0, fileOfSpecs specs⟩]
      = (⟨[⟨0, fileOfSpecs specs⟩, ⟨1, []⟩], 0, ((specs.reverse).map partOfSpec).length⟩,
         Except.ok ((specs.reverse).map partOfSpec)) := by
  match specs, hne with
  | s :: ss, _ =>
    have hpos := fileOfSpecs_length_pos s ss
    have hne0 : ¬((fileOfSpecs (s :: ss)).length = 0) := by omega
    have hwalk : recoverWalk newFileCompaction [⟨0, fileOfSpecs (s :: ss)⟩]
        = (⟨[⟨0, fileOfSpecs (s :: ss)⟩], 0, (((s :: ss).reverse).map partOfSpec).length⟩,
           Except.ok (((s :: ss).reverse).map partOfSpec)) := by
      simp only [recoverWalk]
      rw [if_neg hne0, recoverGo_fileOfSpecs (s :: ss) hb]
      show ((⟨[⟨0, fileOfSpecs (s :: ss)⟩], 0,
            0 + (((s :: ss).reverse).map partOfSpec).length⟩ : FC),
          Except.ok ((((s :: ss).reverse).map partOfSpec) ++ []))
        = (⟨[⟨0, fileOfSpecs (s :: ss)⟩], 0, (((s :: ss).reverse).map partOfSpec).length⟩,
           Except.ok (((s :: ss).reverse).map partOfSpec))
      simp
    simp only [fcRecover, hwalk]
    simp [createIndexFileM]

theorem recTxOfMeta_metaOf (ins : List PPart) (h : headTx ins < 2 ^ 63) :
    recTxOfMeta (metaOf ins) = headTx ins := by
  show (match lookupKV ParquetCompactionTXKey
      [(ParquetCompactionTXKey, uintStr (headTx ins))] with
    | none => 0
    | some s => txFromString s) = headTx ins
  rw [show lookupKV ParquetCompactionTXKey
      [(ParquetCompactionTXKey, uintStr (headTx ins))]
      = some (uintStr (headTx ins)) from by rw [lookupKV, if_pos rfl]]
  exact txFromString_uintStr (headTx ins) h

theorem partOfSpec_specOfInputs (ins : List PPart) (h : headTx ins < 2 ^ 63) :
    partOfSpec (specOfInputs ins) = producedOf ins := by
  show (⟨recTxOfMeta (metaOf ins), ⟨metaOf ins, mergeContent ins⟩⟩ : PPart) = _
  rw [recTxOfMeta_metaOf ins h]
  rfl

/-- The transaction stamps of the parts `recover` returns after the
given compaction sequence ran from a fresh level (`none` when a step or
the recovery fails). -/
def recoveredTxsAfter (seqs : List (List PPart)) : Option (List Nat) :=
  (runCompacts fcInit seqs).bind (fun r =>
    match (fcRecover r.1.files).2 with
    | Except.ok l => some (l.map PPart.tx)
    | Except.error _ => none)

/-! ### Recovery after a failing file (claim C2 machinery). -/

/-- The non-empty (hence opened) files of a directory prefix. -/
def openedOf : List IdxFile → List IdxFile
  | [] => []
  | g :: gs => if g.content.length = 0 then openedOf gs else g :: openedOf gs

theorem recoverWalk_error (dir1 : List IdxFile) :
    ∀ (fc : FC) (f : IdxFile) (dir2 : List IdxFile),
      (∀ g ∈ dir1, g.content.length = 0 ∨ (recoverGo g.content g.content.length).isSome) →
      f.content.length ≠ 0 →
      recoverGo f.content f.content.length = none →
      ∃ lv, recoverWalk fc (dir1 ++ f :: dir2)
        = (⟨fc.files ++ openedOf dir1, fc.offset, lv⟩, Except.error errRecovery) := by
  induction dir1 with
  | nil =>
    intro fc f dir2 _ hfne hfnone
    refine ⟨fc.live, ?_⟩
    show recoverWalk fc (f :: dir2) = _
    simp only [recoverWalk]
    rw [if_neg hfne, hfnone]
    simp [openedOf, List.dropLast_concat]
  | cons g gs ih =>
    intro fc f dir2 h1 hfne hfnone
    rw [List.cons_append]
    by_cases hg : g.content.length = 0
    · simp only [recoverWalk]
      rw [if_pos hg]
      obtain ⟨lv, hw⟩ := ih fc f dir2 (fun x hx => h1 x (List.mem_cons_of_mem g hx)) hfne hfnone
      refine ⟨lv, ?_⟩
      rw [hw]
      simp [openedOf, hg]
    · have hgsome : (recoverGo g.content g.content.length).isSome := by
        rcases h1 g (List.mem_cons_self g gs) with h | h
        · exact absurd h hg
        · exact h
      obtain ⟨l, hl⟩ := Option.isSome_iff_exists.mp hgsome
      simp only [recoverWalk]
      rw [if_neg hg, hl]
      obtain ⟨lv, hw⟩ := ih ⟨fc.files ++ [g], fc.offset, fc.live + l.length⟩ f dir2
        (fun x hx => h1 x (List.mem_cons_of_mem g hx)) hfne hfnone
      refine ⟨lv, ?_⟩
      show (match recoverWalk ⟨fc.files ++ [g], fc.offset, fc.live + l.length⟩
            (gs ++ f :: dir2) with
        | (fc2, Except.ok more) => (fc2, Except.ok (l ++ more))
        | (fc2, Except.error e) => (fc2, Except.error e))
        = (⟨fc.files ++ openedOf (g :: gs), fc.offset, lv⟩, Except.error errRecovery)
      rw [hw]
      simp [openedOf, hg, List.append_assoc]

/-- After any failing file, `recover` returns the error: the walk is
aborted, files after it are never opened, the failing file is dropped
from the list, and the caller receives no parts at all (the healthy
files' parts included). -/
theorem fcRecover_error (dir1 : List IdxFile) (f : IdxFile) (dir2 : List IdxFile)
    (h1 : ∀ g ∈ dir1, g.content.length = 0 ∨ (recoverGo g.content g.content.length).isSome)
    (h2 : f.content.length ≠ 0)
    (h3 : recoverGo f.content f.content.length = none) :
    ∃ lv, fcRecover (dir1 ++ f :: dir2)
      = (⟨openedOf dir1 ++ [⟨(openedOf dir1).length, []⟩], 0, lv⟩,
         Except.error errRecovery) := by
  obtain ⟨lv, hw⟩ := recoverWalk_error dir1 newFileCompaction f dir2 h1 h2 h3
  refine ⟨lv, ?_⟩
  simp only [fcRecover, hw]
  simp [createIndexFileM, newFileCompaction]

/-! ### Column statistics and predicate pruning (`query/expr`). -/

/-- The comparison operators of `logicalplan.Op` used by
`BinaryScalarOperation`. -/
inductive Op where
  | eq
  | notEq
  | lt
  | ltEq
  | gt
  | gtEq
deriving DecidableEq

/-- Per-page statistics from the column index: min and max value
(`none` models a null endpoint, e.g. on an all-null page) and the null
count.  Values are restricted to the signed 64-bit integer physical
type; `compare` dispatches per type in the source and this embedding
instantiates it at `Int64`. -/
structure PageStat where
  minV : Option Int
  maxV : Option Int
  nulls : Nat
deriving DecidableEq

/-- A column chunk's statistics view: its pages, its total value count,
and its optional bloom filter (a membership check). -/
structure ColumnChunkStats where
  pages : List PageStat
  numValues : Nat
  bloom : Option (Int → Bool)

/-- `compare` on two non-null `Int64` values: -1, 0 or 1. -/
def cmpII (a b : Int) : Int := if a < b then -1 else if a = b then 0 else 1

/-- `compare` with a possibly-null second value: a null parquet value
reads as the zero `Int64` (`Value.Int64()` of a null value is 0). -/
def cmpIV (a : Int) (v : Option Int) : Int := cmpII a (v.getD 0)

/-- `NullCount`: the sum of the per-page null counts. -/
def nullCount (pages : List PageStat) : Nat := natSum (pages.map (fun p => p.nulls))

/-- The accumulator loop of `Min`: replace a null accumulator, else
replace when `compare(acc, v) == 1`. -/
def aggMinGo : Option Int → List PageStat → Option Int
  | acc, [] => acc
  | none, p :: rest => aggMinGo p.minV rest
  | some a, p :: rest =>
    if cmpIV a p.minV = 1 then aggMinGo p.minV rest else aggMinGo (some a) rest

/-- `Min`: the aggregate minimum over the pages of the column index. -/
def aggMin (pages : List PageStat) : Option Int :=
  match pages with
  | [] => none
  | p :: rest => aggMinGo p.minV rest

/-- The accumulator loop of `Max`. -/
def aggMaxGo : Option Int → List PageStat → Option Int
  | acc, [] => acc
  | none, p :: rest => aggMaxGo p.maxV rest
  | some a, p :: rest =>
    if cmpIV a p.maxV = -1 then aggMaxGo p.maxV rest else aggMaxGo (some a) rest

/-- `Max`: the aggregate maximum over the pages of the column index. -/
def aggMax (pages : List PageStat) : Option Int :=
  match pages with
  | [] => none
  | p :: rest => aggMaxGo p.maxV rest

/-- `BinaryScalarOperation` on a present column chunk: `true` means the
chunk may contain a match, `false` means it definitely does not. -/
def binaryScalarOperation (chunk : ColumnChunkStats) (right : Option Int) (op : Op) : Bool :=
  let numNulls := nullCount chunk.pages
  if op = Op.eq then
    match right with
    | none => decide (0 < numNulls)
    | some r =>
      if numNulls = chunk.numValues then false
      else
        match chunk.bloom with
        | none => decide (cmpIV r (aggMax chunk.pages) ≤ 0 ∧ 0 ≤ cmpIV r (aggMin chunk.pages))
        | some check => check r
  else
    match right with
    | none => true
    | some r =>
      if numNulls = chunk.numValues then false
      else
        match op with
        | Op.ltEq =>
          match aggMin chunk.pages with
          | none => true
          | some m => decide (cmpII m r ≤ 0)
        | Op.lt =>
          match aggMin chunk.pages with
          | none => true
          | some m => decide (cmpII m r < 0)
        | Op.gt =>
          match aggMax chunk.pages with
          | none => true
          | some mx => decide (0 < cmpII mx r)
        | Op.gtEq =>
          match aggMax chunk.pages with
          | none => true
          | some mx => decide (0 ≤ cmpII mx r)
        | _ => true

/-- Aggregate minimum as the spec's claim words it: the minimum over
all pages' non-null per-page minima. -/
def specAggMin (pages : List PageStat) : Option Int :=
  match pages.filterMap (fun p => p.minV) with
  | [] => none
  | x :: xs => some (xs.foldl min x)

/-- Aggregate maximum as the spec's claim words it: the maximum over
all pages' non-null per-page maxima. -/
def specAggMax (pages : List PageStat) : Option Int :=
  match pages.filterMap (fun p => p.maxV) with
  | [] => none
  | x :: xs => some (xs.foldl max x)

theorem aggMinGo_allSome (pages : List PageStat) :
    ∀ a : Int, (∀ p ∈ pages, p.minV.isSome) →
      aggMinGo (some a) pages = some ((pages.filterMap (fun p => p.minV)).foldl min a) := by
  induction pages with
  | nil => intro a _; rfl
  | cons p rest ih =>
    intro a hall
    obtain ⟨b, hb⟩ := Option.isSome_iff_exists.mp (hall p (List.mem_cons_self p rest))
    have hrest : ∀ q ∈ rest, q.minV.isSome := fun q hq => hall q (List.mem_cons_of_mem p hq)
    show (if cmpIV a p.minV = 1 then aggMinGo p.minV rest else aggMinGo (some a) rest) = _
    rw [hb]
    simp only [List.filterMap_cons, hb]
    by_cases hab : b < a
    · rw [if_pos (by simp [cmpIV, cmpII]; omega), ih b hrest]
      have : min a b = b := by omega
      simp [this]
    · rw [if_neg (by simp [cmpIV, cmpII]; omega), ih a hrest]
      have : min a b = a := by omega
      simp [this]

theorem aggMaxGo_allSome (pages : List PageStat) :
    ∀ a : Int, (∀ p ∈ pages, p.maxV.isSome) →
      aggMaxGo (some a) pages = some ((pages.filterMap (fun p => p.maxV)).foldl max a) := by
  induction pages with
  | nil => intro a _; rfl
  | cons p rest ih =>
    intro a hall
    obtain ⟨b, hb⟩ := Option.isSome_iff_exists.mp (hall p (List.mem_cons_self p rest))
    have hrest : ∀ q ∈ rest, q.maxV.isSome := fun q hq => hall q (List.mem_cons_of_mem p hq)
    show (if cmpIV a p.maxV = -1 then aggMaxGo p.maxV rest else aggMaxGo (some a) rest) = _
    rw [hb]
    simp only [List.filterMap_cons, hb]
    by_cases hab : a < b
    · rw [if_pos (by simp [cmpIV, cmpII]; omega), ih b hrest]
      have : max a b = b := by omega
      simp [this]
    · rw [if_neg (by simp [cmpIV, cmpII]; omega), ih a hrest]
      have : max a b = a := by omega
      simp [this]

theorem aggMin_eq_spec (pages : List PageStat)
    (hall : ∀ p ∈ pages, p.minV.isSome) : aggMin pages = specAggMin pages := by
  match pages with
  | [] => rfl
  | p :: rest =>
    obtain ⟨b, hb⟩ := Option.isSome_iff_exists.mp (hall p (List.mem_cons_self p rest))
    show aggMinGo p.minV rest = _
    rw [hb, aggMinGo_allSome rest b
      (fun q hq => hall q (List.mem_cons_of_mem p hq))]
    rw [specAggMin]
    simp [List.filterMap_cons, hb]

theorem aggMax_eq_spec (pages : List PageStat)
    (hall : ∀ p ∈ pages, p.maxV.isSome) : aggMax pages = specAggMax pages := by
  match pages with
  | [] => rfl
  | p :: rest =>
    obtain ⟨b, hb⟩ := Option.isSome_iff_exists.mp (hall p (List.mem_cons_self p rest))
    show aggMaxGo p.maxV rest = _
    rw [hb, aggMaxGo_allSome rest b
      (fun q hq => hall q (List.mem_cons_of_mem p hq))]
    rw [specAggMax]
    simp [List.filterMap_cons, hb]

/-! ### The claims. -/

deriving instance DecidableEq for Except

set_option maxRecDepth 100000

/-- C1 (amended): for every sequence of successful `Compact` calls on a
file level whose head-input transaction stamps all lie below `2 ^ 63`
(the `int64` range `strconv.Atoi` accepts) and whose payloads fit a
64-bit length, closing/reopening the level and calling `recover`
returns exactly the parts that were produced — the same set, each part
with the same TX stamp and buffer, in reverse (back-to-front) order.
The original claim's "for every uint64 t" fails at `t = 2 ^ 63`: see
the counterexample. -/
theorem C1_roundtrip_amended (seqs : List (List PPart))
    (h1 : ∀ ins ∈ seqs, ins ≠ [])
    (h2 : ∀ ins ∈ seqs, (payloadFC ins).length < 2 ^ 64)
    (h3 : ∀ ins ∈ seqs, headTx ins < 2 ^ 63) :
    ∃ fc1, runCompacts fcInit seqs = some (fc1, seqs.map producedOf)
      ∧ (fcRecover fc1.files).2 = Except.ok ((seqs.map producedOf).reverse)
      ∧ ∀ p : PPart, p ∈ (seqs.map producedOf).reverse ↔ p ∈ seqs.map producedOf := by
  have hrun := runCompacts_spec seqs [] 0 h1
  have hinit : fcInit = runEndState [] 0 := rfl
  rw [← hinit] at hrun
  simp only [List.nil_append, Nat.zero_add] at hrun
  refine ⟨runEndState (seqs.map specOfInputs) seqs.length, hrun, ?_,
    fun p => List.mem_reverse⟩
  have hfiles : (runEndState (seqs.map specOfInputs) seqs.length).files
      = [⟨0, fileOfSpecs (seqs.map specOfInputs)⟩] := rfl
  rw [hfiles]
  cases seqs with
  | nil =>
    show (fcRecover [⟨0, fileOfSpecs []⟩]).2 = Except.ok []
    rfl
  | cons s0 ss =>
    have hb : ∀ x ∈ (s0 :: ss).map specOfInputs, (payloadOfSpec x).length < 2 ^ 64 := by
      intro x hx
      obtain ⟨ins, hins, rfl⟩ := List.mem_map.mp hx
      exact h2 ins hins
    rw [fcRecover_single ((s0 :: ss).map specOfInputs) hb (by simp)]
    show Except.ok ((((s0 :: ss).map specOfInputs).reverse).map partOfSpec)
      = Except.ok (((s0 :: ss).map producedOf).reverse)
    rw [← List.map_reverse, List.map_map]
    have hmc : List.map (partOfSpec ∘ specOfInputs) (s0 :: ss).reverse
        = List.map producedOf (s0 :: ss).reverse :=
      List.map_congr_left
        (fun x hx => partOfSpec_specOfInputs x (h3 x (List.mem_reverse.mp hx)))
    rw [hmc, List.map_reverse]

def c1wseqs : List (List PPart) := [[⟨7, ⟨[], [5]⟩⟩], [⟨9, ⟨[], []⟩⟩]]

theorem C1_roundtrip_amended_witness :
    (∀ ins ∈ c1wseqs, ins ≠ [])
      ∧ (∀ ins ∈ c1wseqs, (payloadFC ins).length < 2 ^ 64)
      ∧ (∀ ins ∈ c1wseqs, headTx ins < 2 ^ 63)
      ∧ (∃ fc1, runCompacts fcInit c1wseqs = some (fc1, c1wseqs.map producedOf)
          ∧ (fcRecover fc1.files).2 = Except.ok ((c1wseqs.map producedOf).reverse)
          ∧ ∀ p : PPart,
              p ∈ (c1wseqs.map producedOf).reverse ↔ p ∈ c1wseqs.map producedOf) :=
  ⟨by decide, by decide, by decide,
    C1_roundtrip_amended c1wseqs (by decide) (by decide) (by decide)⟩

def c1cexSeqs : List (List PPart) := [[⟨2 ^ 63, ⟨[], []⟩⟩]]

/-- C1 counterexample: one successful `Compact` whose first input is
stamped `2 ^ 63` produces a part with TX `2 ^ 63`, but after close and
reopen `recover` returns that part with TX `0`: `strconv.Atoi` rejects
the decimal string of `2 ^ 63` (out of the `int64` range) and the code
downgrades the stamp to zero, so the round-trip of the claim fails for
this `uint64 t`. -/
theorem C1_counterexample :
    (runCompacts fcInit c1cexSeqs).map (fun r => r.2.map PPart.tx) = some [2 ^ 63]
      ∧ recoveredTxsAfter c1cexSeqs = some [0] := ⟨by decide, by decide⟩

/-- C2 (amended): when recovering any file of the directory fails, the
parts already recovered from that file are released and the file is
closed and dropped from the file list — but the walk is aborted rather
than continued: `recover` propagates the error, the files after the
failing one are never opened, and the caller receives no parts at all,
the healthy files' parts included (`return nil, err`). -/
theorem C2_recover_error_amended (dir1 : List IdxFile) (f : IdxFile) (dir2 : List IdxFile)
    (h1 : ∀ g ∈ dir1, g.content.length = 0 ∨ (recoverGo g.content g.content.length).isSome)
    (h2 : f.content.length ≠ 0)
    (h3 : recoverGo f.content f.content.length = none) :
    ∃ lv, fcRecover (dir1 ++ f :: dir2)
      = (⟨openedOf dir1 ++ [⟨(openedOf dir1).length, []⟩], 0, lv⟩,
         Except.error errRecovery) :=
  fcRecover_error dir1 f dir2 h1 h2 h3

def c2goodSpec : List (String × String) × List Nat :=
  ([(ParquetCompactionTXKey, uintStr 1)], [3])

def c2good : IdxFile := ⟨0, fileOfSpecs [c2goodSpec]⟩

def c2bad : IdxFile := ⟨1, w64le 0⟩

theorem C2_recover_error_amended_witness :
    (∀ g ∈ [c2good], g.content.length = 0 ∨ (recoverGo g.content g.content.length).isSome)
      ∧ c2bad.content.length ≠ 0
      ∧ recoverGo c2bad.content c2bad.content.length = none
      ∧ (∃ lv, fcRecover ([c2good] ++ c2bad :: [])
          = (⟨openedOf [c2good] ++ [⟨(openedOf [c2good]).length, []⟩], 0, lv⟩,
             Except.error errRecovery)) :=
  ⟨by decide, by decide, by decide,
    C2_recover_error_amended [c2good] c2bad [] (by decide) (by decide) (by decide)⟩

/-- C2 counterexample: a directory with one healthy file (one record,
TX 1) and one corrupt file (a lone trailer announcing a zero-length
payload, which fails to open).  `recover` returns the error — the
healthy file's part is not returned to the caller, contradicting the
claim that the walk continues and healthy parts survive; recovering the
healthy file alone succeeds. -/
theorem C2_counterexample :
    (fcRecover [c2good, c2bad]).2 = Except.error errRecovery
      ∧ (fcRecover [c2good]).2
        = Except.ok [⟨1, ⟨[(ParquetCompactionTXKey, uintStr 1)], [3]⟩⟩] :=
  ⟨by decide, by decide⟩

def c3in : List PPart := [⟨7, ⟨[], []⟩⟩]

/-- C3 counterexample: `NewFileCompaction` leaves the file list empty —
no initial active file with id 0 is created — and a first `Compact`
call on the freshly opened level does not succeed (the Go code indexes
`indexFiles[len-1]` on an empty slice; the model reports the missing
active file as an error). -/
theorem C3_counterexample :
    newFileCompaction.files = []
      ∧ (fcCompact newFileCompaction c3in).2 = Except.error errNoActiveFile :=
  ⟨rfl, rfl⟩

/-- C3 (amended): `NewFileCompaction` only creates the level directory;
it opens no index file, so every `Compact` call before a `recover` or
`Reset` fails.  The initial active file with id 0 is created by `Reset`
or by `recover`'s deferred `createIndexFile`. -/
theorem C3_open_amended :
    newFileCompaction = ⟨[], 0, 0⟩
      ∧ (∀ inputs, ∃ e, (fcCompact newFileCompaction inputs).2 = Except.error e)
      ∧ (fcReset newFileCompaction).files = [⟨0, []⟩]
      ∧ (fcRecover []).1.files = [⟨0, []⟩] := by
  refine ⟨rfl, ?_, rfl, rfl⟩
  intro inputs
  cases inputs with
  | nil => exact ⟨errNoParts, rfl⟩
  | cons i0 rest => exact ⟨errNoActiveFile, rfl⟩

/-- C4: after every successful `FileCompaction.Compact`, the active file
grew by the payload followed by the 8-byte little-endian trailer
holding exactly the payload's byte count, the write offset advanced by
payload + 8, `postCompactionBytes` is the payload's byte count, and a
file that was a concatenation of well-formed records still is one. -/
theorem C4_trailer_identity (fc : FC) (inputs : List PPart) (fc1 : FC)
    (res : List PPart × Nat × Nat)
    (h : fcCompact fc inputs = (fc1, Except.ok res)) :
    ∃ active, fc.files.getLast? = some active
      ∧ fc1.files = fc.files.dropLast
          ++ [⟨active.id,
              active.content ++ payloadFC inputs ++ w64le (payloadFC inputs).length⟩]
      ∧ fc1.offset = fc.offset + (payloadFC inputs).length + 8
      ∧ res.2.2 = (payloadFC inputs).length
      ∧ ∀ specs, active.content = fileOfSpecs specs →
          active.content ++ payloadFC inputs ++ w64le (payloadFC inputs).length
            = fileOfSpecs (specs ++ [specOfInputs inputs]) := by
  match inputs with
  | [] =>
    simp only [fcCompact] at h
    simp at h
  | i0 :: rest =>
    simp only [fcCompact] at h
    split at h
    · simp at h
    · rename_i active hactive
      split at h
      · simp at h
      · rename_i pf hpf
        rw [Prod.mk.injEq] at h
        obtain ⟨hfc1, hres⟩ := h
        rw [Except.ok.injEq] at hres
        refine ⟨active, hactive, ?_, ?_, ?_, ?_⟩
        · rw [← hfc1]
        · rw [← hfc1]
        · rw [← hres]
        · intro specs hspecs
          rw [hspecs, fileOfSpecs_append]
          simp [fileOfSpecs, recordBytes, List.append_assoc]
          rfl

def c4in : List PPart := [⟨1, ⟨[], []⟩⟩]

def c4st : FC :=
  ⟨[⟨0, payloadFC c4in ++ w64le (payloadFC c4in).length⟩], (payloadFC c4in).length + 8, 1⟩

def c4res : List PPart × Nat × Nat := ([⟨1, ⟨metaOf c4in, []⟩⟩], 0, (payloadFC c4in).length)

theorem C4_trailer_identity_witness :
    ∃ active, fcInit.files.getLast? = some active
      ∧ c4st.files = fcInit.files.dropLast
          ++ [⟨active.id,
              active.content ++ payloadFC c4in ++ w64le (payloadFC c4in).length⟩]
      ∧ c4st.offset = fcInit.offset + (payloadFC c4in).length + 8
      ∧ c4res.2.2 = (payloadFC c4in).length
      ∧ ∀ specs, active.content = fileOfSpecs specs →
          active.content ++ payloadFC c4in ++ w64le (payloadFC c4in).length
            = fileOfSpecs (specs ++ [specOfInputs c4in]) :=
  C4_trailer_identity fcInit c4in c4st c4res (by decide)

/-- C5: `Compact` with an empty input slice fails on both levels with
the "no parts to compact" error, returns no parts and zero byte counts,
and leaves the file level's state (file list, offset, live counter)
untouched; the in-memory level allocates nothing. -/
theorem C5_empty_inputs (fc : FC) :
    fcCompact fc [] = (fc, Except.error errNoParts)
      ∧ inMemCompact [] = Except.error errNoParts :=
  ⟨rfl, rfl⟩

/-- C6: every successful `Compact` on either level returns a
single-element part slice whose part is stamped with `inputs[0].TX()`,
and `postCompactionBytes` is the byte count of the serialized payload
(the trailer excluded on the file level). -/
theorem C6_single_part_tx :
    (∀ (fc fc1 : FC) (i0 : PPart) (rest ps : List PPart) (pre post : Nat),
        fcCompact fc (i0 :: rest) = (fc1, Except.ok (ps, pre, post)) →
        (∃ p, ps = [p] ∧ p.tx = i0.tx) ∧ post = (payloadFC (i0 :: rest)).length)
      ∧ (∀ (i0 : PPart) (rest ps : List PPart) (pre post : Nat),
          inMemCompact (i0 :: rest) = Except.ok (ps, pre, post) →
          (∃ p, ps = [p] ∧ p.tx = i0.tx) ∧ post = (payloadMem (i0 :: rest)).length) := by
  constructor
  · intro fc fc1 i0 rest ps pre post h
    simp only [fcCompact] at h
    split at h
    · simp at h
    · rename_i active hactive
      split at h
      · simp at h
      · rename_i pf hpf
        rw [Prod.mk.injEq] at h
        obtain ⟨hfc1, hres⟩ := h
        rw [Except.ok.injEq, Prod.mk.injEq] at hres
        obtain ⟨hps, hrest⟩ := hres
        rw [Prod.mk.injEq] at hrest
        exact ⟨⟨⟨i0.tx, pf⟩, hps.symm, rfl⟩, hrest.2.symm⟩
  · intro i0 rest ps pre post h
    simp only [inMemCompact] at h
    split at h
    · simp at h
    · rename_i pf hpf
      rw [Except.ok.injEq, Prod.mk.injEq] at h
      obtain ⟨hps, hrest⟩ := h
      rw [Prod.mk.injEq] at hrest
      exact ⟨⟨⟨i0.tx, pf⟩, hps.symm, rfl⟩, hrest.2.symm⟩

def c6in : List PPart := [⟨7, ⟨[], [2]⟩⟩]

theorem C6_single_part_tx_witness :
    ((∃ p, [(⟨7, ⟨metaOf c6in, [2]⟩⟩ : PPart)] = [p] ∧ p.tx = (7 : Nat))
        ∧ (payloadFC c6in).length = (payloadFC c6in).length)
      ∧ ((∃ p, [(⟨7, ⟨[], [2]⟩⟩ : PPart)] = [p] ∧ p.tx = (7 : Nat))
          ∧ (payloadMem c6in).length = (payloadMem c6in).length) :=
  ⟨C6_single_part_tx.1 fcInit (fcCompact fcInit c6in).1 ⟨7, ⟨[], [2]⟩⟩ []
      [⟨7, ⟨metaOf c6in, [2]⟩⟩] (preSize c6in) (payloadFC c6in).length (by decide),
    C6_single_part_tx.2 ⟨7, ⟨[], [2]⟩⟩ [] [⟨7, ⟨[], [2]⟩⟩] (preSize c6in)
      (payloadMem c6in).length (by decide)⟩

theorem recTxOfMeta_bad (m : List (String × String))
    (hbad : lookupKV ParquetCompactionTXKey m = none
      ∨ ∃ v, lookupKV ParquetCompactionTXKey m = some v ∧ atoi v = none) :
    recTxOfMeta m = 0 := by
  rcases hbad with h | ⟨v, hv, hav⟩
  · unfold recTxOfMeta
    rw [h]
  · unfold recTxOfMeta
    rw [hv]
    show txFromString v = 0
    unfold txFromString
    rw [hav]

/-- C7: during recovery of a file of well-formed records, a record
whose metadata lacks the `compaction_tx` key, or whose value does not
parse as a decimal integer, is constructed with transaction 0 — and it
is still recovered along with every other record of the file (nothing
is dropped and the walk continues). -/
theorem C7_tx_downgrade (specs : List (List (String × String) × List Nat))
    (m : List (String × String)) (c : List Nat)
    (hb : ∀ s ∈ specs, (payloadOfSpec s).length < 2 ^ 64)
    (hbad : lookupKV ParquetCompactionTXKey m = none
      ∨ ∃ v, lookupKV ParquetCompactionTXKey m = some v ∧ atoi v = none)
    (hmem : (m, c) ∈ specs) :
    recoverGo (fileOfSpecs specs) (fileOfSpecs specs).length
        = some ((specs.reverse).map partOfSpec)
      ∧ partOfSpec (m, c) = ⟨0, ⟨m, c⟩⟩
      ∧ (⟨0, ⟨m, c⟩⟩ : PPart) ∈ (specs.reverse).map partOfSpec := by
  have h2 : partOfSpec (m, c) = ⟨0, ⟨m, c⟩⟩ := by
    show (⟨recTxOfMeta m, ⟨m, c⟩⟩ : PPart) = _
    rw [recTxOfMeta_bad m hbad]
  refine ⟨recoverGo_fileOfSpecs specs hb, h2, ?_⟩
  rw [← h2]
  exact List.mem_map_of_mem partOfSpec (List.mem_reverse.mpr hmem)

def c7badTx : String := "tx"

def c7specs : List (List (String × String) × List Nat) :=
  [([], [9]), ([(ParquetCompactionTXKey, c7badTx)], [5])]

theorem C7_tx_downgrade_witness :
    recoverGo (fileOfSpecs c7specs) (fileOfSpecs c7specs).length
        = some ((c7specs.reverse).map partOfSpec)
      ∧ partOfSpec ([], [9]) = ⟨0, ⟨[], [9]⟩⟩
      ∧ (⟨0, ⟨[], [9]⟩⟩ : PPart) ∈ (c7specs.reverse).map partOfSpec :=
  C7_tx_downgrade c7specs [] [9] (by decide) (Or.inl (by decide)) (by decide)

/-- C9: `Snapshot` with an empty active file returns early: every file
but the active one has been linked, the empty active file is not
linked, no rotation happens and the state is unchanged.  With a
non-empty active file every file is linked and the level rotates by
creating a fresh empty active file whose id is the current file
count. -/
theorem C9_snapshot (fc : FC) (last : IdxFile) (h : fc.files.getLast? = some last) :
    (fc.offset = 0 → fcSnapshot fc = (fc, fc.files.dropLast))
      ∧ (0 < fc.offset →
          fcSnapshot fc = (createIndexFileM fc, fc.files.dropLast ++ [last])
            ∧ (createIndexFileM fc).files = fc.files ++ [⟨fc.files.length, []⟩]
            ∧ (createIndexFileM fc).offset = 0) := by
  constructor
  · intro h0
    simp only [fcSnapshot, h]
    rw [if_neg (by omega)]
  · intro hpos
    refine ⟨?_, rfl, rfl⟩
    simp only [fcSnapshot, h]
    rw [if_pos hpos]

def c9fc : FC := ⟨[⟨0, [5]⟩], 1, 0⟩

theorem C9_snapshot_witness :
    (c9fc.offset = 0 → fcSnapshot c9fc = (c9fc, c9fc.files.dropLast))
      ∧ (0 < c9fc.offset →
          fcSnapshot c9fc = (createIndexFileM c9fc, c9fc.files.dropLast ++ [⟨0, [5]⟩])
            ∧ (createIndexFileM c9fc).files = c9fc.files ++ [⟨c9fc.files.length, []⟩]
            ∧ (createIndexFileM c9fc).offset = 0) :=
  C9_snapshot c9fc ⟨0, [5]⟩ (by decide)

def c8pages : List PageStat := [⟨some 5, some 5, 0⟩, ⟨none, none, 3⟩]

def c8chunk : ColumnChunkStats := ⟨c8pages, 4, none⟩

/-- C8 counterexample: a chunk with a normal page (min = max = 5) and
an all-null page (null per-page endpoints).  For `col = 3` with no
bloom filter and the chunk not entirely null, the claim's aggregate
minimum over non-null page minima is 5, so the claimed iff demands
`false` (3 < 5); but in the code `Min` replaces a non-null accumulator
by a null page minimum (`compare` reads a null `Int64` value as 0), so
the aggregate min becomes null, the comparison `compare(3, null) ≥ 0`
holds, and `BinaryScalarOperation` returns `true`. -/
theorem C8_counterexample :
    binaryScalarOperation c8chunk (some 3) Op.eq = true
      ∧ specAggMin c8pages = some 5
      ∧ specAggMax c8pages = some 5
      ∧ ¬((5 : Int) ≤ 3 ∧ (3 : Int) ≤ 5) :=
  ⟨by decide, by decide, by decide, by decide⟩

/-- C8 (amended): for a present column with operator `=`, a non-null
value, a chunk that is not entirely null and has no bloom filter, and
additionally **no all-null pages** (every per-page min and max is
non-null), the pruning decision is exactly
`aggregateMin ≤ value ∧ value ≤ aggregateMax`, the aggregates being the
min (resp. max) over the pages' non-null minima (resp. maxima).  The
extra hypothesis is forced by the counterexample: with a null per-page
endpoint the code's fold can lose the aggregate. -/
theorem C8_eq_minmax_amended (chunk : ColumnChunkStats) (r m M : Int)
    (hbloom : chunk.bloom = none)
    (hmin : specAggMin chunk.pages = some m)
    (hmax : specAggMax chunk.pages = some M)
    (hall : ∀ p ∈ chunk.pages, p.minV.isSome ∧ p.maxV.isSome)
    (hnn : nullCount chunk.pages ≠ chunk.numValues) :
    binaryScalarOperation chunk (some r) Op.eq = decide (m ≤ r ∧ r ≤ M) := by
  have hmineq : aggMin chunk.pages = some m := by
    rw [aggMin_eq_spec chunk.pages (fun p hp => (hall p hp).1), hmin]
  have hmaxeq : aggMax chunk.pages = some M := by
    rw [aggMax_eq_spec chunk.pages (fun p hp => (hall p hp).2), hmax]
  show (if nullCount chunk.pages = chunk.numValues then false
      else match chunk.bloom with
        | none =>
          decide (cmpIV r (aggMax chunk.pages) ≤ 0 ∧ 0 ≤ cmpIV r (aggMin chunk.pages))
        | some check => check r)
    = decide (m ≤ r ∧ r ≤ M)
  rw [if_neg hnn, hbloom, hmineq, hmaxeq]
  show decide (cmpIV r (some M) ≤ 0 ∧ 0 ≤ cmpIV r (some m)) = _
  rw [decide_eq_decide]
  show cmpII r M ≤ 0 ∧ 0 ≤ cmpII r m ↔ m ≤ r ∧ r ≤ M
  unfold cmpII
  split_ifs <;> omega

def c8wchunk : ColumnChunkStats := ⟨[⟨some 2, some 6, 1⟩, ⟨some 4, some 5, 0⟩], 10, none⟩

theorem C8_eq_minmax_amended_witness :
    (c8wchunk.bloom = none)
      ∧ specAggMin c8wchunk.pages = some 2
      ∧ specAggMax c8wchunk.pages = some 6
      ∧ (∀ p ∈ c8wchunk.pages, p.minV.isSome ∧ p.maxV.isSome)
      ∧ nullCount c8wchunk.pages ≠ c8wchunk.numValues
      ∧ binaryScalarOperation c8wchunk (some 3) Op.eq = decide ((2 : Int) ≤ 3 ∧ (3 : Int) ≤ 6) :=
  ⟨rfl, by decide, by decide, by decide, by decide,
    C8_eq_minmax_amended c8wchunk 3 2 6 rfl (by decide) (by decide) (by decide) (by decide)⟩

/-- C10: a `≠` predicate with a non-null value on a present column is
never pruned as long as the chunk holds at least one non-null value
(the statistics relation `nullCount ≠ numValues`): the operator falls
through every special case into the default branch and the function
returns `true` regardless of min/max statistics or bloom filter; only
when every value of the chunk is null (`nullCount = numValues`) does it
return `false`. -/
theorem C10_notEq_no_prune (chunk : ColumnChunkStats) (r : Int) :
    (nullCount chunk.pages ≠ chunk.numValues →
        binaryScalarOperation chunk (some r) Op.notEq = true)
      ∧ (nullCount chunk.pages = chunk.numValues →
          binaryScalarOperation chunk (some r) Op.notEq = false) := by
  constructor
  · intro h
    show (if nullCount chunk.pages = chunk.numValues then false else true) = true
    rw [if_neg h]
  · intro h
    show (if nullCount chunk.pages = chunk.numValues then false else true) = false
    rw [if_pos h]

def c10chunk : ColumnChunkStats := ⟨[⟨some 1, some 2, 1⟩], 3, none⟩

theorem C10_notEq_no_prune_witness :
    (nullCount c10chunk.pages ≠ c10chunk.numValues →
        binaryScalarOperation c10chunk (some 7) Op.notEq = true)
      ∧ (nullCount c10chunk.pages = c10chunk.numValues →
          binaryScalarOperation c10chunk (some 7) Op.notEq = false) :=
  C10_notEq_no_prune c10chunk 7

end FrostIdx
